import Mathlib

/-!
Verification of the fieldbus configuration-and-exchange layer of
linuxcnc-ethercat (`src/lcec_ethercat.c`): the configuration channel
(SDO/IDN reads, the two-phase SDO write and its fixed-width and
named-option wrappers), the sync-manager/PDO/PDO-entry descriptor
builder, the FSoE process-image relay, the slave registry lookup and
the modparam lookup.

The shallow embedding translates each C function into a Lean function.
The external EtherCAT master library calls (`ecrt_master_sdo_upload`,
`ecrt_master_sdo_download`, `ecrt_slave_config_sdo`,
`ecrt_master_read_idn`) are modelled as transport outcomes / oracles
that the embedded function consumes, and the side effect "the
persistent-registration call was invoked" is made explicit in the
result record.  C ints used as success codes become `Int` (0 success,
-1 failure as in the source).  Byte buffers become `List Nat`.
-/

/-- Outcome of the external transport call `ecrt_master_sdo_upload`:
the error code it returns, the result size it reports, and the bytes
it wrote into the caller's target buffer. -/
structure SdoUpload where
  err : Int
  result_size : Nat
  data : List Nat
deriving DecidableEq, Repr

/-- Outcome of the external transport call `ecrt_master_read_idn`:
the error code it returns, the result size it reports, and the bytes
it wrote into the caller's target buffer (the underlying protocol
surfaces a 16-bit `error_code` instead of an SDO abort code; it is
only printed, so it is not part of the model's control flow). -/
structure IdnRead where
  err : Int
  result_size : Nat
  data : List Nat
deriving DecidableEq, Repr

/-- Embedding of `lcec_read_sdo` (src/lcec_ethercat.c:106).  The
transport outcome `u` stands for what `ecrt_master_sdo_upload` did;
the function returns -1 if the transport reported an error, -1 if the
reported result size differs from the requested `size`, and 0
otherwise — exactly the two guarded early returns of the source. -/
def lcec_read_sdo (u : SdoUpload) (size : Nat) : Int :=
  if u.err ≠ 0 then -1
  else if u.result_size ≠ size then -1
  else 0

/-- Embedding of `lcec_read_idn` (src/lcec_ethercat.c:280), same
two-guard shape as `lcec_read_sdo` but over the IDN transport call. -/
def lcec_read_idn (u : IdnRead) (size : Nat) : Int :=
  if u.err ≠ 0 then -1
  else if u.result_size ≠ size then -1
  else 0

/-- The two external calls `lcec_write_sdo` makes, as oracles: the
blocking `ecrt_master_sdo_download` and the persistent
`ecrt_slave_config_sdo`, each mapping (index, subindex, value bytes,
size) to the error code the library returns. -/
structure SdoTransport where
  download : Nat → Nat → List Nat → Nat → Int
  configSdo : Nat → Nat → List Nat → Nat → Int

/-- Result of the embedded `lcec_write_sdo`: the C return value, an
explicit record of whether the persistent-registration call
(`ecrt_slave_config_sdo`) was reached, and the buffer/size that were
handed to the download phase. -/
structure SdoWriteResult where
  ret : Int
  configInvoked : Bool
  downloadedData : List Nat
  downloadedSize : Nat
deriving Repr

/-- Embedding of `lcec_write_sdo` (src/lcec_ethercat.c:150): first the
blocking download; if it fails, return -1 without touching the
persistent config; otherwise invoke `ecrt_slave_config_sdo` and return
-1 if that fails, 0 if both phases succeed. -/
def lcec_write_sdo (t : SdoTransport) (index subindex : Nat) (value : List Nat) (size : Nat) :
    SdoWriteResult :=
  if t.download index subindex value size ≠ 0 then
    { ret := -1, configInvoked := false, downloadedData := value, downloadedSize := size }
  else if t.configSdo index subindex value size ≠ 0 then
    { ret := -1, configInvoked := true, downloadedData := value, downloadedSize := size }
  else
    { ret := 0, configInvoked := true, downloadedData := value, downloadedSize := size }

/-- Modelled from the spec: `EC_WRITE_U8` is a macro of the external
EtherCAT master library (not part of this repository); it serializes
an 8-bit scalar into the fieldbus's defined on-wire byte order
(EtherCAT is little-endian). -/
def EC_WRITE_U8 (v : Nat) : List Nat := [v % 256]

/-- Modelled from the spec: `EC_WRITE_U16`, little-endian 16-bit
serialization of the external master library. -/
def EC_WRITE_U16 (v : Nat) : List Nat := [v % 256, v / 256 % 256]

/-- Modelled from the spec: `EC_WRITE_U32`, little-endian 32-bit
serialization of the external master library. -/
def EC_WRITE_U32 (v : Nat) : List Nat :=
  [v % 256, v / 256 % 256, v / 65536 % 256, v / 16777216 % 256]

/-- Modelled from the spec: `EC_READ_U8`, the matching deserializer of
the external master library. -/
def EC_READ_U8 (d : List Nat) : Nat := d.getD 0 0

/-- Modelled from the spec: `EC_READ_U16`, little-endian 16-bit
deserializer of the external master library. -/
def EC_READ_U16 (d : List Nat) : Nat := d.getD 0 0 + 256 * d.getD 1 0

/-- Modelled from the spec: `EC_READ_U32`, little-endian 32-bit
deserializer of the external master library. -/
def EC_READ_U32 (d : List Nat) : Nat :=
  d.getD 0 0 + 256 * d.getD 1 0 + 65536 * d.getD 2 0 + 16777216 * d.getD 3 0

/-- Embedding of `lcec_write_sdo8` (src/lcec_ethercat.c:180):
serialize into a 1-byte buffer and delegate to `lcec_write_sdo` with
size 1. -/
def lcec_write_sdo8 (t : SdoTransport) (index subindex value : Nat) : SdoWriteResult :=
  lcec_write_sdo t index subindex (EC_WRITE_U8 value) 1

/-- Embedding of `lcec_write_sdo16` (src/lcec_ethercat.c:196):
serialize into a 2-byte buffer and delegate with size 2. -/
def lcec_write_sdo16 (t : SdoTransport) (index subindex value : Nat) : SdoWriteResult :=
  lcec_write_sdo t index subindex (EC_WRITE_U16 value) 2

/-- Embedding of `lcec_write_sdo32` (src/lcec_ethercat.c:212):
serialize into a 4-byte buffer and delegate with size 4. -/
def lcec_write_sdo32 (t : SdoTransport) (index subindex value : Nat) : SdoWriteResult :=
  lcec_write_sdo t index subindex (EC_WRITE_U32 value) 4

/-- Embedding of `lcec_write_sdo8_modparam` (src/lcec_ethercat.c:229):
call `lcec_write_sdo8`; on a negative result print a modparam-tagged
message (diagnostics only, not modelled) and return -1, else 0.  The
`mpname` argument only feeds the message, so it is carried as an
unused opaque value. -/
def lcec_write_sdo8_modparam (t : SdoTransport) (index subindex value mpname : Nat) : Int :=
  if (lcec_write_sdo8 t index subindex value).ret < 0 then -1 else 0

/-- Embedding of `lcec_write_sdo16_modparam` (src/lcec_ethercat.c:249). -/
def lcec_write_sdo16_modparam (t : SdoTransport) (index subindex value mpname : Nat) : Int :=
  if (lcec_write_sdo16 t index subindex value).ret < 0 then -1 else 0

/-- Embedding of `lcec_write_sdo32_modparam` (src/lcec_ethercat.c:269). -/
def lcec_write_sdo32_modparam (t : SdoTransport) (index subindex value mpname : Nat) : Int :=
  if (lcec_write_sdo32 t index subindex value).ret < 0 then -1 else 0

/-- A transport upload outcome standing for "the transport stores what
was downloaded and serves it back": no error, and the stored bytes are
returned in full.  Used to state the write/read round-trip property. -/
def storingUpload (stored : List Nat) : SdoUpload :=
  { err := 0, result_size := stored.length, data := stored }

/-- C1: `lcec_write_sdo` is two-phase — if the blocking download phase
fails the operation returns -1 and the persistent-registration call
(`ecrt_slave_config_sdo`) is never invoked; if the download succeeds
but the persistent-registration phase fails, the operation still
returns -1; it returns 0 exactly when both phases succeed. -/
theorem lcec_write_sdo_two_phase (t : SdoTransport) (index subindex : Nat)
    (value : List Nat) (size : Nat) :
    (t.download index subindex value size ≠ 0 →
      (lcec_write_sdo t index subindex value size).ret = -1 ∧
      (lcec_write_sdo t index subindex value size).configInvoked = false) ∧
    (t.download index subindex value size = 0 →
      t.configSdo index subindex value size ≠ 0 →
      (lcec_write_sdo t index subindex value size).ret = -1) ∧
    ((lcec_write_sdo t index subindex value size).ret = 0 ↔
      t.download index subindex value size = 0 ∧
      t.configSdo index subindex value size = 0) := by
  unfold lcec_write_sdo
  by_cases h1 : t.download index subindex value size = 0 <;>
    by_cases h2 : t.configSdo index subindex value size = 0 <;>
    simp [h1, h2]

/-- The all-success transport: both phases report 0. -/
def transportOk : SdoTransport :=
  { download := fun _ _ _ _ => 0, configSdo := fun _ _ _ _ => 0 }

/-- The transport whose download phase fails. -/
def transportDownloadFail : SdoTransport :=
  { download := fun _ _ _ _ => 1, configSdo := fun _ _ _ _ => 0 }

/-- The transport whose download phase succeeds but whose
persistent-registration phase fails. -/
def transportConfigFail : SdoTransport :=
  { download := fun _ _ _ _ => 0, configSdo := fun _ _ _ _ => 1 }

/-- Witness for C1 at concrete transports: a failing download yields
-1 with the persist phase not invoked, a failing persist phase yields
-1, and the all-success transport yields 0. -/
theorem lcec_write_sdo_two_phase_witness :
    (lcec_write_sdo transportDownloadFail 1 2 [3] 1).ret = -1 ∧
    (lcec_write_sdo transportDownloadFail 1 2 [3] 1).configInvoked = false ∧
    (lcec_write_sdo transportConfigFail 1 2 [3] 1).ret = -1 ∧
    (lcec_write_sdo transportOk 1 2 [3] 1).ret = 0 := by
  refine ⟨?_, ?_, ?_, ?_⟩
  · exact ((lcec_write_sdo_two_phase transportDownloadFail 1 2 [3] 1).1 (by decide)).1
  · exact ((lcec_write_sdo_two_phase transportDownloadFail 1 2 [3] 1).1 (by decide)).2
  · exact (lcec_write_sdo_two_phase transportConfigFail 1 2 [3] 1).2.1 (by decide) (by decide)
  · exact (lcec_write_sdo_two_phase transportOk 1 2 [3] 1).2.2.mpr ⟨by decide, by decide⟩

/-- C2: both `lcec_read_sdo` and `lcec_read_idn` return failure (-1)
whenever the transport reports a non-zero error or the returned byte
count differs from the requested size, and return 0 exactly when the
transport succeeds and the byte count matches — a size mismatch is
never turned into a success. -/
theorem lcec_read_size_check (u : SdoUpload) (v : IdnRead) (size : Nat) :
    (lcec_read_sdo u size = 0 ↔ u.err = 0 ∧ u.result_size = size) ∧
    (u.err ≠ 0 ∨ u.result_size ≠ size → lcec_read_sdo u size = -1) ∧
    (lcec_read_idn v size = 0 ↔ v.err = 0 ∧ v.result_size = size) ∧
    (v.err ≠ 0 ∨ v.result_size ≠ size → lcec_read_idn v size = -1) := by
  unfold lcec_read_sdo lcec_read_idn
  constructor
  · by_cases h1 : u.err = 0 <;> by_cases h2 : u.result_size = size <;> simp [h1, h2]
  constructor
  · by_cases h1 : u.err = 0 <;> by_cases h2 : u.result_size = size <;> simp [h1, h2]
  constructor
  · by_cases h1 : v.err = 0 <;> by_cases h2 : v.result_size = size <;> simp [h1, h2]
  · by_cases h1 : v.err = 0 <;> by_cases h2 : v.result_size = size <;> simp [h1, h2]

/-- Witness for C2 at concrete outcomes: a short read of 3 bytes
against a 4-byte request fails for both addressing schemes, and an
exact read succeeds. -/
theorem lcec_read_size_check_witness :
    lcec_read_sdo ⟨0, 3, [1, 2, 3]⟩ 4 = -1 ∧
    lcec_read_idn ⟨0, 3, [1, 2, 3]⟩ 4 = -1 ∧
    lcec_read_sdo ⟨0, 4, [1, 2, 3, 4]⟩ 4 = 0 := by
  refine ⟨?_, ?_, ?_⟩
  · exact (lcec_read_size_check ⟨0, 3, [1, 2, 3]⟩ ⟨0, 3, [1, 2, 3]⟩ 4).2.1 (by decide)
  · exact (lcec_read_size_check ⟨0, 3, [1, 2, 3]⟩ ⟨0, 3, [1, 2, 3]⟩ 4).2.2.2 (by decide)
  · exact (lcec_read_size_check ⟨0, 4, [1, 2, 3, 4]⟩ ⟨0, 4, [1, 2, 3, 4]⟩ 4).1.mpr
      ⟨by decide, by decide⟩

/-- C7: each fixed-width write helper serializes its scalar into the
on-wire (little-endian) byte order into a buffer of exactly 1, 2 or 4
bytes and delegates to `lcec_write_sdo` with that buffer and size, and
writing any value of the width then reading it back through
`lcec_read_sdo` against a transport that stores what was downloaded
succeeds and recovers the value bit-identically. -/
theorem lcec_write_sdo_width_roundtrip (t : SdoTransport) (index subindex v8 v16 v32 : Nat)
    (h8 : v8 < 256) (h16 : v16 < 65536) (h32 : v32 < 4294967296) :
    (lcec_write_sdo8 t index subindex v8 =
        lcec_write_sdo t index subindex (EC_WRITE_U8 v8) 1 ∧
      (EC_WRITE_U8 v8).length = 1 ∧
      lcec_read_sdo (storingUpload (EC_WRITE_U8 v8)) 1 = 0 ∧
      (storingUpload (EC_WRITE_U8 v8)).data = EC_WRITE_U8 v8 ∧
      EC_READ_U8 (EC_WRITE_U8 v8) = v8) ∧
    (lcec_write_sdo16 t index subindex v16 =
        lcec_write_sdo t index subindex (EC_WRITE_U16 v16) 2 ∧
      (EC_WRITE_U16 v16).length = 2 ∧
      lcec_read_sdo (storingUpload (EC_WRITE_U16 v16)) 2 = 0 ∧
      (storingUpload (EC_WRITE_U16 v16)).data = EC_WRITE_U16 v16 ∧
      EC_READ_U16 (EC_WRITE_U16 v16) = v16) ∧
    (lcec_write_sdo32 t index subindex v32 =
        lcec_write_sdo t index subindex (EC_WRITE_U32 v32) 4 ∧
      (EC_WRITE_U32 v32).length = 4 ∧
      lcec_read_sdo (storingUpload (EC_WRITE_U32 v32)) 4 = 0 ∧
      (storingUpload (EC_WRITE_U32 v32)).data = EC_WRITE_U32 v32 ∧
      EC_READ_U32 (EC_WRITE_U32 v32) = v32) := by
  refine ⟨⟨rfl, rfl, by simp [lcec_read_sdo, storingUpload, EC_WRITE_U8], rfl, ?_⟩,
      ⟨rfl, rfl, by simp [lcec_read_sdo, storingUpload, EC_WRITE_U16], rfl, ?_⟩,
      ⟨rfl, rfl, by simp [lcec_read_sdo, storingUpload, EC_WRITE_U32], rfl, ?_⟩⟩
  · simp [EC_READ_U8, EC_WRITE_U8]
    omega
  · simp [EC_READ_U16, EC_WRITE_U16]
    omega
  · simp [EC_READ_U32, EC_WRITE_U32]
    omega

/-- Witness for C7 at concrete values of each width: the round trip
recovers 0xAB, 0xBEEF and 0xDEADBEEF bit-identically. -/
theorem lcec_write_sdo_width_roundtrip_witness :
    EC_READ_U8 (EC_WRITE_U8 171) = 171 ∧
    EC_READ_U16 (EC_WRITE_U16 48879) = 48879 ∧
    EC_READ_U32 (EC_WRITE_U32 3735928559) = 3735928559 ∧
    lcec_read_sdo (storingUpload (EC_WRITE_U32 3735928559)) 4 = 0 := by
  have h := lcec_write_sdo_width_roundtrip transportOk 0 0 171 48879 3735928559
    (by decide) (by decide) (by decide)
  exact ⟨h.1.2.2.2.2, h.2.1.2.2.2.2, h.2.2.2.2.2.2, h.2.2.2.2.1⟩

/-- The return value of `lcec_write_sdo` is always 0 or -1. -/
theorem lcec_write_sdo_ret_cases (t : SdoTransport) (index subindex : Nat)
    (value : List Nat) (size : Nat) :
    (lcec_write_sdo t index subindex value size).ret = 0 ∨
    (lcec_write_sdo t index subindex value size).ret = -1 := by
  unfold lcec_write_sdo
  by_cases h1 : t.download index subindex value size = 0 <;>
    by_cases h2 : t.configSdo index subindex value size = 0 <;>
    simp [h1, h2]

/-- C8: each named-option write variant returns exactly the result of
the corresponding fixed-width helper on the same arguments — for any
option name, so the name never influences the success/failure outcome,
and the writes performed are those of the same single helper call. -/
theorem lcec_write_sdo_modparam_same (t : SdoTransport) (index subindex v8 v16 v32 : Nat)
    (mpname : Nat) :
    lcec_write_sdo8_modparam t index subindex v8 mpname =
      (lcec_write_sdo8 t index subindex v8).ret ∧
    lcec_write_sdo16_modparam t index subindex v16 mpname =
      (lcec_write_sdo16 t index subindex v16).ret ∧
    lcec_write_sdo32_modparam t index subindex v32 mpname =
      (lcec_write_sdo32 t index subindex v32).ret := by
  refine ⟨?_, ?_, ?_⟩
  · unfold lcec_write_sdo8_modparam
    rcases lcec_write_sdo_ret_cases t index subindex (EC_WRITE_U8 v8) 1 with h | h <;>
      rw [lcec_write_sdo8] at * <;> rw [h] <;> simp
  · unfold lcec_write_sdo16_modparam
    rcases lcec_write_sdo_ret_cases t index subindex (EC_WRITE_U16 v16) 2 with h | h <;>
      rw [lcec_write_sdo16] at * <;> rw [h] <;> simp
  · unfold lcec_write_sdo32_modparam
    rcases lcec_write_sdo_ret_cases t index subindex (EC_WRITE_U32 v32) 4 with h | h <;>
      rw [lcec_write_sdo32] at * <;> rw [h] <;> simp

/-- Witness for C8 at concrete transports: with a failing download the
modparam variant returns -1 like the helper, and with the all-success
transport it returns 0 like the helper. -/
theorem lcec_write_sdo_modparam_same_witness :
    lcec_write_sdo8_modparam transportDownloadFail 1 2 7 99 = -1 ∧
    lcec_write_sdo8_modparam transportOk 1 2 7 99 = 0 := by
  constructor
  · have h := (lcec_write_sdo_modparam_same transportDownloadFail 1 2 7 7 7 99).1
    rw [h]; decide
  · have h := (lcec_write_sdo_modparam_same transportOk 1 2 7 7 7 99).1
    rw [h]; decide

/-- A slave as seen by the registry scan: its stable position index
(an `int` in the source) plus an abstract payload standing for all the
other fields, so that distinct slaves with equal indices can be told
apart.  The master's singly linked `first_slave` chain is modelled as
the list of its nodes in chain order. -/
structure SlaveRec where
  index : Int
  payload : Nat
deriving DecidableEq, Repr

/-- Embedding of `lcec_slave_by_index` (src/lcec_ethercat.c:29): walk
the master's slave chain in order, return the first slave whose index
matches, or `none` (NULL) if the chain is exhausted. -/
def lcec_slave_by_index : List SlaveRec → Int → Option SlaveRec
  | [], _ => none
  | s :: rest, idx => if s.index = idx then some s else lcec_slave_by_index rest idx

/-- If no element of the chain carries the index, the scan returns
`none`. -/
theorem lcec_slave_by_index_not_found (l : List SlaveRec) (idx : Int)
    (h : ∀ s, s ∈ l → s.index ≠ idx) : lcec_slave_by_index l idx = none := by
  induction l with
  | nil => rfl
  | cons a rest ih =>
    unfold lcec_slave_by_index
    rw [if_neg (h a (List.mem_cons_self a rest))]
    exact ih fun s hs => h s (List.mem_cons_of_mem a hs)

/-- C6: on a master whose slave chain has pairwise-distinct indices,
`lcec_slave_by_index` returns the unique slave carrying a present
index, and `none` for any absent index — for chains of any length,
including 0 and 1. -/
theorem lcec_slave_by_index_spec (l : List SlaveRec) (idx : Int)
    (hdist : l.Pairwise (fun a b => a.index ≠ b.index)) :
    (∀ s, s ∈ l → s.index = idx → lcec_slave_by_index l idx = some s) ∧
    ((∀ s, s ∈ l → s.index ≠ idx) → lcec_slave_by_index l idx = none) := by
  constructor
  · induction l with
    | nil => intro s hs; exact absurd hs (List.not_mem_nil s)
    | cons a rest ih =>
      intro s hs hse
      rcases List.mem_cons.mp hs with h | h
      · subst h
        unfold lcec_slave_by_index
        rw [if_pos hse]
      · have hane : a.index ≠ idx := by
          have := (List.pairwise_cons.mp hdist).1 s h
          rw [hse] at this
          exact this
        unfold lcec_slave_by_index
        rw [if_neg hane]
        exact ih (List.pairwise_cons.mp hdist).2 s h hse
  · exact lcec_slave_by_index_not_found l idx

/-- Witness for C6 on a three-slave chain with distinct indices: index
5 resolves to the middle slave and index 9 is not found. -/
theorem lcec_slave_by_index_spec_witness :
    lcec_slave_by_index [⟨3, 0⟩, ⟨5, 1⟩, ⟨7, 2⟩] 5 = some ⟨5, 1⟩ ∧
    lcec_slave_by_index [⟨3, 0⟩, ⟨5, 1⟩, ⟨7, 2⟩] 9 = none := by
  constructor
  · exact (lcec_slave_by_index_spec [⟨3, 0⟩, ⟨5, 1⟩, ⟨7, 2⟩] 5 (by decide)).1
      ⟨5, 1⟩ (by decide) (by decide)
  · exact (lcec_slave_by_index_spec [⟨3, 0⟩, ⟨5, 1⟩, ⟨7, 2⟩] 9 (by decide)).2 (by decide)

/-- C9: when the chain holds several slaves with the same index, the
scan returns the one occurring earliest in attachment order: if
position `i` matches and no earlier position does, the result is the
slave at position `i` — even when later duplicates exist. -/
theorem lcec_slave_by_index_first_match (l : List SlaveRec) (idx : Int) (i : Nat)
    (hi : i < l.length)
    (hmatch : (l.getD i ⟨0, 0⟩).index = idx)
    (hbefore : ∀ j, j < i → (l.getD j ⟨0, 0⟩).index ≠ idx) :
    lcec_slave_by_index l idx = some (l.getD i ⟨0, 0⟩) := by
  induction l generalizing i with
  | nil => exact absurd hi (Nat.not_lt_zero i)
  | cons a rest ih =>
    cases i with
    | zero =>
      simp only [List.getD_cons_zero] at hmatch ⊢
      unfold lcec_slave_by_index
      rw [if_pos hmatch]
    | succ n =>
      have hane : a.index ≠ idx := by
        have := hbefore 0 (Nat.succ_pos n)
        simpa using this
      simp only [List.getD_cons_succ] at hmatch ⊢
      unfold lcec_slave_by_index
      rw [if_neg hane]
      exact ih n (Nat.lt_of_succ_lt_succ (by simpa using hi)) hmatch
        fun j hj => by simpa using hbefore (j + 1) (Nat.succ_lt_succ hj)

/-- Witness for C9 on a chain with a duplicated index 5: the earlier
of the two duplicates (payload 1) is returned, not the later one. -/
theorem lcec_slave_by_index_first_match_witness :
    lcec_slave_by_index [⟨3, 0⟩, ⟨5, 1⟩, ⟨5, 2⟩] 5 = some ⟨5, 1⟩ := by
  have h := lcec_slave_by_index_first_match [⟨3, 0⟩, ⟨5, 1⟩, ⟨5, 2⟩] 5 1
    (by decide) (by decide) (by decide)
  simpa using h

/-- One entry of a slave's modparam array: its numeric id (negative
ids act as the array's terminator in the source's scan loop) and an
abstract stand-in for the `LCEC_CONF_MODPARAM_VAL_T` value. -/
structure ModparamEntry where
  id : Int
  value : Nat
deriving DecidableEq, Repr

/-- The scan loop of `lcec_modparam_get`: stop with NULL at the first
entry with a negative id, return the value of the first entry whose id
matches, otherwise keep walking.  (In C the loop walks a raw array and
is only defined when a terminator entry exists; the nil case models
reaching past the scanned region.) -/
def modparamScan : List ModparamEntry → Int → Option Nat
  | [], _ => none
  | p :: rest, i =>
    if p.id < 0 then none
    else if p.id = i then some p.value
    else modparamScan rest i

/-- Embedding of `lcec_modparam_get` (src/lcec_ethercat.c:382): NULL
modparam list gives NULL, otherwise scan the array. -/
def lcec_modparam_get (modparams : Option (List ModparamEntry)) (i : Int) : Option Nat :=
  match modparams with
  | none => none
  | some l => modparamScan l i

/-- C10: `lcec_modparam_get` returns `none` on a NULL list; on a list
shaped as non-negative entries `pre` followed by a sentinel (first
negative id) and arbitrary tail, it returns the value of the first
entry of `pre` whose id matches, or `none` if none matches — entries
after the sentinel are never consulted. -/
theorem lcec_modparam_get_spec (pre post : List ModparamEntry) (s : ModparamEntry)
    (i : Int) (hpre : ∀ p, p ∈ pre → 0 ≤ p.id) (hs : s.id < 0) :
    lcec_modparam_get none i = none ∧
    lcec_modparam_get (some (pre ++ s :: post)) i =
      (pre.find? fun p => p.id == i).map (fun p => p.value) := by
  refine ⟨rfl, ?_⟩
  unfold lcec_modparam_get
  induction pre with
  | nil =>
    simp only [List.nil_append, List.find?_nil]
    unfold modparamScan
    rw [if_pos hs]
    rfl
  | cons a rest ih =>
    have ha : ¬a.id < 0 := not_lt.mpr (hpre a (List.mem_cons_self a rest))
    simp only [List.cons_append]
    unfold modparamScan
    rw [if_neg ha]
    by_cases hai : a.id = i
    · rw [if_pos hai, List.find?_cons_of_pos _ (by simpa using hai)]
      rfl
    · rw [if_neg hai, List.find?_cons_of_neg _ (by simpa using hai)]
      exact ih fun p hp => hpre p (List.mem_cons_of_mem a hp)

/-- Witness for C10: a NULL list gives `none`; in a list with entries
(id 1, id 3), sentinel id -1, then an id-9 entry after the sentinel,
id 3 resolves to its value, and id 9 — present only after the
sentinel — is not found. -/
theorem lcec_modparam_get_spec_witness :
    lcec_modparam_get none 3 = none ∧
    lcec_modparam_get (some [⟨1, 10⟩, ⟨3, 30⟩, ⟨-1, 0⟩, ⟨9, 90⟩]) 3 = some 30 ∧
    lcec_modparam_get (some [⟨1, 10⟩, ⟨3, 30⟩, ⟨-1, 0⟩, ⟨9, 90⟩]) 9 = none := by
  have h3 := (lcec_modparam_get_spec [⟨1, 10⟩, ⟨3, 30⟩] [⟨9, 90⟩] ⟨-1, 0⟩ 3
    (by decide) (by decide)).2
  have h9 := (lcec_modparam_get_spec [⟨1, 10⟩, ⟨3, 30⟩] [⟨9, 90⟩] ⟨-1, 0⟩ 9
    (by decide) (by decide)).2
  refine ⟨rfl, ?_, ?_⟩
  · rw [show ([⟨1, 10⟩, ⟨3, 30⟩, ⟨-1, 0⟩, ⟨9, 90⟩] : List ModparamEntry) =
      [⟨1, 10⟩, ⟨3, 30⟩] ++ ⟨-1, 0⟩ :: [⟨9, 90⟩] from rfl, h3]
    decide
  · rw [show ([⟨1, 10⟩, ⟨3, 30⟩, ⟨-1, 0⟩, ⟨9, 90⟩] : List ModparamEntry) =
      [⟨1, 10⟩, ⟨3, 30⟩] ++ ⟨-1, 0⟩ :: [⟨9, 90⟩] from rfl, h9]
    decide

/-- The FSoE geometry record `LCEC_CONF_FSOE_T` as used by
`copy_fsoe_data`: channel count and the per-direction payload
lengths. -/
structure FsoeConf where
  data_channels : Nat
  slave_data_len : Nat
  master_data_len : Nat
deriving DecidableEq, Repr

/-- The slave fields `copy_fsoe_data` reads: the optional FSoE
mapping, and the two optional offsets into the process image (each a
nullable pointer to an offset in the source, modelled as
`Option Nat`). -/
structure FsoeSlave where
  fsoeConf : Option FsoeConf
  fsoe_slave_offset : Option Nat
  fsoe_master_offset : Option Nat

/-- A `memcpy` of `n` bytes inside the process image, modelled
functionally: positions `dst ≤ i < dst + n` take the byte at
`src + (i - dst)` of the pre-copy image, all others are unchanged. -/
def memcpyPd (pd : Nat → Nat) (dst src n : Nat) : Nat → Nat :=
  fun i => if dst ≤ i ∧ i < dst + n then pd (src + (i - dst)) else pd i

/-- Embedding of `copy_fsoe_data` (src/lcec_ethercat.c:42).  The copy
length macro `LCEC_FSOE_SIZE` lives in the repository's `lcec.h`,
which is not among the given sources, so the formula is abstracted as
the parameter `fsoeSize` (the spec fixes only that it is a function of
channel count and payload length); every theorem below holds for an
arbitrary `fsoeSize`, hence for the repository's formula.  A NULL
`fsoeConf` returns immediately; otherwise the two guarded `memcpy`
calls run in source order. -/
def copy_fsoe_data (fsoeSize : Nat → Nat → Nat) (slave : FsoeSlave)
    (pd : Nat → Nat) (slave_offset master_offset : Nat) : Nat → Nat :=
  match slave.fsoeConf with
  | none => pd
  | some conf =>
    let pd1 := match slave.fsoe_slave_offset with
      | none => pd
      | some so => memcpyPd pd so slave_offset (fsoeSize conf.data_channels conf.slave_data_len)
    match slave.fsoe_master_offset with
    | none => pd1
    | some mo => memcpyPd pd1 master_offset mo (fsoeSize conf.data_channels conf.master_data_len)

/-- A byte inside the destination window takes the corresponding
source byte. -/
theorem memcpyPd_in (pd : Nat → Nat) (dst src n i : Nat)
    (h1 : dst ≤ i) (h2 : i < dst + n) :
    memcpyPd pd dst src n i = pd (src + (i - dst)) := by
  unfold memcpyPd
  rw [if_pos ⟨h1, h2⟩]

/-- A byte outside the destination window is unchanged. -/
theorem memcpyPd_out (pd : Nat → Nat) (dst src n i : Nat)
    (h : i < dst ∨ dst + n ≤ i) :
    memcpyPd pd dst src n i = pd i := by
  unfold memcpyPd
  rw [if_neg]
  rintro ⟨h1, h2⟩
  omega

/-- C4: for any copy-length formula, `copy_fsoe_data` (a) with a NULL
mapping leaves every byte of the image unmodified whatever the other
fields hold; with a mapping present, (b) every byte outside the
slave-facing window (when that offset exists) and outside the
master-facing window (when that offset exists) is unmodified; (c) if
the slave-facing offset `d` exists, each of the
`fsoeSize channels slave_data_len` destination bytes not overwritten
by the second copy equals the corresponding byte of the slave's
generic region at `slave_offset`; (d) if the master-facing offset
`srcm` exists, each of the `fsoeSize channels master_data_len` bytes
at `master_offset` equals the corresponding source byte, provided the
source byte was not itself a destination of the first copy. -/
theorem copy_fsoe_data_spec (fsoeSize : Nat → Nat → Nat) (conf : FsoeConf)
    (oso omo : Option Nat) (pd : Nat → Nat) (slave_offset master_offset : Nat) :
    (∀ oso2 omo2, copy_fsoe_data fsoeSize ⟨none, oso2, omo2⟩ pd slave_offset master_offset = pd) ∧
    (∀ i, (∀ d, oso = some d →
          i < d ∨ d + fsoeSize conf.data_channels conf.slave_data_len ≤ i) →
        (omo = none ∨ i < master_offset ∨
          master_offset + fsoeSize conf.data_channels conf.master_data_len ≤ i) →
        copy_fsoe_data fsoeSize ⟨some conf, oso, omo⟩ pd slave_offset master_offset i = pd i) ∧
    (∀ d, oso = some d → ∀ j, j < fsoeSize conf.data_channels conf.slave_data_len →
        (omo = none ∨ d + j < master_offset ∨
          master_offset + fsoeSize conf.data_channels conf.master_data_len ≤ d + j) →
        copy_fsoe_data fsoeSize ⟨some conf, oso, omo⟩ pd slave_offset master_offset (d + j) =
          pd (slave_offset + j)) ∧
    (∀ srcm, omo = some srcm → ∀ j, j < fsoeSize conf.data_channels conf.master_data_len →
        (∀ d, oso = some d →
          srcm + j < d ∨ d + fsoeSize conf.data_channels conf.slave_data_len ≤ srcm + j) →
        copy_fsoe_data fsoeSize ⟨some conf, oso, omo⟩ pd slave_offset master_offset
          (master_offset + j) = pd (srcm + j)) := by
  refine ⟨fun oso2 omo2 => rfl, ?_, ?_, ?_⟩
  · intro i hd1 hd2
    rcases oso with _ | so <;> rcases omo with _ | mo
    · simp [copy_fsoe_data]
    · simp only [copy_fsoe_data]
      refine memcpyPd_out pd master_offset mo _ i ?_
      rcases hd2 with h | h
      · exact absurd h (by simp)
      · exact h
    · simp only [copy_fsoe_data]
      exact memcpyPd_out pd so slave_offset _ i (hd1 so rfl)
    · have h2 : i < master_offset ∨
          master_offset + fsoeSize conf.data_channels conf.master_data_len ≤ i := by
        rcases hd2 with h | h
        · exact absurd h (by simp)
        · exact h
      simp only [copy_fsoe_data]
      rw [memcpyPd_out _ master_offset mo _ i h2]
      exact memcpyPd_out pd so slave_offset _ i (hd1 so rfl)
  · intro d hd j hj hd2
    rcases oso with _ | so
    · exact absurd hd (by simp)
    injection hd with hso
    subst hso
    rcases omo with _ | mo
    · simp only [copy_fsoe_data]
      exact memcpyPd_in pd so slave_offset _ (so + j) (by omega) (by omega) |>.trans
        (by rw [Nat.add_sub_cancel_left])
    · have h3 : so + j < master_offset ∨
          master_offset + fsoeSize conf.data_channels conf.master_data_len ≤ so + j := by
        rcases hd2 with h | h
        · exact absurd h (by simp)
        · exact h
      simp only [copy_fsoe_data]
      rw [memcpyPd_out _ master_offset mo _ (so + j) h3]
      exact memcpyPd_in pd so slave_offset _ (so + j) (by omega) (by omega) |>.trans
        (by rw [Nat.add_sub_cancel_left])
  · intro srcm hmo j hj hd1
    rcases omo with _ | mo
    · exact absurd hmo (by simp)
    injection hmo with hmo2
    subst hmo2
    rcases oso with _ | so
    · simp only [copy_fsoe_data]
      exact memcpyPd_in pd master_offset mo _ (master_offset + j) (by omega) (by omega) |>.trans
        (by rw [Nat.add_sub_cancel_left])
    · simp only [copy_fsoe_data]
      rw [memcpyPd_in _ master_offset mo _ (master_offset + j) (by omega) (by omega)]
      rw [Nat.add_sub_cancel_left]
      exact memcpyPd_out pd so slave_offset _ (mo + j) (hd1 so rfl)

/-- A concrete copy-length formula for the witness (one command byte
plus per-channel payload and CRC plus a connection id, the shape the
spec describes as constant framing overhead per channel plus
payload). -/
def demoFsoeSize (channels len : Nat) : Nat := 1 + channels * (len + 2) + 2

/-- A concrete image for the witness: byte `i` holds `i`. -/
def demoPd (i : Nat) : Nat := i

/-- Witness for C4 at a concrete configuration: with a one-channel
mapping (payload sizes 1 and 2), slave-facing offset 40,
master-facing offset 60, generic region at 10 and master region at
80, the relayed bytes and an untouched byte have the claimed values,
and a slave with no mapping leaves the image unmodified. -/
theorem copy_fsoe_data_spec_witness :
    copy_fsoe_data demoFsoeSize ⟨none, some 40, some 60⟩ demoPd 10 80 = demoPd ∧
    copy_fsoe_data demoFsoeSize ⟨some ⟨1, 1, 2⟩, some 40, some 60⟩ demoPd 10 80 42 = demoPd 12 ∧
    copy_fsoe_data demoFsoeSize ⟨some ⟨1, 1, 2⟩, some 40, some 60⟩ demoPd 10 80 83 = demoPd 63 ∧
    copy_fsoe_data demoFsoeSize ⟨some ⟨1, 1, 2⟩, some 40, some 60⟩ demoPd 10 80 55 = demoPd 55 := by
  have h := copy_fsoe_data_spec demoFsoeSize ⟨1, 1, 2⟩ (some 40) (some 60) demoPd 10 80
  refine ⟨h.1 (some 40) (some 60), ?_, ?_, ?_⟩
  · have := h.2.2.1 40 rfl 2 (by decide) (by right; left; decide)
    simpa using this
  · have := h.2.2.2 60 rfl 3 (by decide) (by intro d hd; cases hd; right; decide)
    simpa using this
  · exact h.2.1 55 (by intro d hd; cases hd; right; decide) (by right; left; decide)

/-- An `ec_sync_info_t` slot as the builder uses it: the uint8 index
(0xff acts as the terminator in the consumer's convention), direction
and watchdog enums (kept abstract as `Nat`), the PDO count and the
head pointer into the flat PDO table (modelled as the head's position,
`none` for NULL). -/
structure EcSyncInfo where
  index : Nat
  dir : Nat
  watchdog_mode : Nat
  n_pdos : Nat
  pdos : Option Nat
deriving DecidableEq, Repr

/-- An `ec_pdo_info_t` slot: the 16-bit PDO index, the entry count and
the head pointer into the flat entry table. -/
structure EcPdoInfo where
  index : Nat
  n_entries : Nat
  entries : Option Nat
deriving DecidableEq, Repr

/-- An `ec_pdo_entry_info_t` slot: object index, sub-index and bit
length. -/
structure EcPdoEntryInfo where
  index : Nat
  subindex : Nat
  bit_length : Nat
deriving DecidableEq, Repr

/-- The `lcec_syncs_t` descriptor set: three flat tables (modelled as
total functions from slot position, since the fixed C capacities live
in the missing `lcec.h` and exceeding them is a caller contract
violation out of scope here), their counts, and the three "current"
cursors (pointers into the tables, modelled as positions). -/
structure LcecSyncs where
  syncs : Nat → EcSyncInfo
  sync_count : Nat
  pdo_infos : Nat → EcPdoInfo
  pdo_info_count : Nat
  pdo_entries : Nat → EcPdoEntryInfo
  pdo_entry_count : Nat
  curr_sync : Option Nat
  curr_pdo_info : Option Nat
  curr_pdo_entry : Option Nat

/-- Pointwise update of a flat table at one slot. -/
def updAt {α : Type} (f : Nat → α) (i : Nat) (v : α) : Nat → α :=
  fun j => if j = i then v else f j

/-- The all-zero sync slot produced by `memset` 0 (a NULL `pdos`
pointer). -/
def zeroSyncInfo : EcSyncInfo := ⟨0, 0, 0, 0, none⟩

/-- The all-zero PDO slot produced by `memset` 0. -/
def zeroPdoInfo : EcPdoInfo := ⟨0, 0, none⟩

/-- The all-zero entry slot produced by `memset` 0. -/
def zeroPdoEntryInfo : EcPdoEntryInfo := ⟨0, 0, 0⟩

/-- Embedding of `lcec_syncs_init` (src/lcec_ethercat.c:61): `memset`
the whole structure to zero — all slots zero, all counts zero, all
cursors NULL. -/
def lcec_syncs_init : LcecSyncs :=
  { syncs := fun _ => zeroSyncInfo
    sync_count := 0
    pdo_infos := fun _ => zeroPdoInfo
    pdo_info_count := 0
    pdo_entries := fun _ => zeroPdoEntryInfo
    pdo_entry_count := 0
    curr_sync := none
    curr_pdo_info := none
    curr_pdo_entry := none }

/-- Embedding of `lcec_syncs_add_sync` (src/lcec_ethercat.c:64): point
`curr_sync` at slot `sync_count`, write that slot's index (a uint8, so
modulo 256), direction and watchdog mode, increment the count, then
write the 0xff terminator index into the slot at the new count. -/
def lcec_syncs_add_sync (s : LcecSyncs) (dir watchdog_mode : Nat) : LcecSyncs :=
  let c := s.sync_count
  let cur := s.syncs c
  let f1 := updAt s.syncs c
    { cur with index := c % 256, dir := dir, watchdog_mode := watchdog_mode }
  let sent := f1 (c + 1)
  let f2 := updAt f1 (c + 1) { sent with index := 255 }
  { s with syncs := f2, sync_count := c + 1, curr_sync := some c }

/-- Embedding of `lcec_syncs_add_pdo_info` (src/lcec_ethercat.c:76):
point `curr_pdo_info` at slot `pdo_info_count`; through `curr_sync`
(a NULL dereference — caller contract violation — is modelled as
`none`), set the sync's PDO head to this slot if it was NULL and
increment its PDO count; write the PDO's 16-bit index; increment the
PDO count. -/
def lcec_syncs_add_pdo_info (s : LcecSyncs) (index : Nat) : Option LcecSyncs :=
  match s.curr_sync with
  | none => none
  | some cs =>
    let c := s.pdo_info_count
    let sync := s.syncs cs
    let sync2 :=
      if sync.pdos = none then
        { sync with pdos := some c, n_pdos := sync.n_pdos + 1 }
      else
        { sync with n_pdos := sync.n_pdos + 1 }
    let pdo := s.pdo_infos c
    some { s with
      syncs := updAt s.syncs cs sync2
      pdo_infos := updAt s.pdo_infos c { pdo with index := index % 65536 }
      pdo_info_count := c + 1
      curr_pdo_info := some c }

/-- Embedding of `lcec_syncs_add_pdo_entry` (src/lcec_ethercat.c:90):
point `curr_pdo_entry` at slot `pdo_entry_count`; through
`curr_pdo_info` (NULL dereference modelled as `none`), set the PDO's
entry head to this slot if it was NULL and increment its entry count;
write the entry's index, sub-index and bit length; increment the entry
count. -/
def lcec_syncs_add_pdo_entry (s : LcecSyncs) (index subindex bit_length : Nat) :
    Option LcecSyncs :=
  match s.curr_pdo_info with
  | none => none
  | some cp =>
    let c := s.pdo_entry_count
    let pdo := s.pdo_infos cp
    let pdo2 :=
      if pdo.entries = none then
        { pdo with entries := some c, n_entries := pdo.n_entries + 1 }
      else
        { pdo with n_entries := pdo.n_entries + 1 }
    some { s with
      pdo_infos := updAt s.pdo_infos cp pdo2
      pdo_entries := updAt s.pdo_entries c
        { index := index % 65536, subindex := subindex % 256, bit_length := bit_length % 256 }
      pdo_entry_count := c + 1
      curr_pdo_entry := some c }

/-- Run a list of `lcec_syncs_add_sync` calls (direction, watchdog
pairs) left to right. -/
def addSyncs (s : LcecSyncs) : List (Nat × Nat) → LcecSyncs
  | [] => s
  | (d, w) :: rest => addSyncs (lcec_syncs_add_sync s d w) rest


/-- How one `lcec_syncs_add_sync` call transforms the sync table, slot
by slot: the slot at the old count gets the new descriptor, the slot
one past it gets the 0xff terminator index (its other fields are
whatever was there), all other slots are untouched. -/
theorem lcec_syncs_add_sync_syncs (s : LcecSyncs) (d w i : Nat) :
    (lcec_syncs_add_sync s d w).syncs i =
      if i = s.sync_count + 1 then
        { index := 255, dir := (s.syncs (s.sync_count + 1)).dir,
          watchdog_mode := (s.syncs (s.sync_count + 1)).watchdog_mode,
          n_pdos := (s.syncs (s.sync_count + 1)).n_pdos,
          pdos := (s.syncs (s.sync_count + 1)).pdos }
      else if i = s.sync_count then
        { index := s.sync_count % 256, dir := d, watchdog_mode := w,
          n_pdos := (s.syncs s.sync_count).n_pdos, pdos := (s.syncs s.sync_count).pdos }
      else s.syncs i := by
  simp only [lcec_syncs_add_sync, updAt]
  by_cases h1 : i = s.sync_count + 1
  · have h2 : ¬ s.sync_count + 1 = s.sync_count := by omega
    subst h1
    simp [h2]
  · by_cases h2 : i = s.sync_count
    · subst h2
      simp [h1]
    · simp [h1, h2]

/-- Invariant of a pure `lcec_syncs_add_sync` sequence: every slot
below the count holds its own position as index, and (once at least
one call happened) the slot at the count holds the 0xff terminator. -/
theorem addSyncs_invariant (l : List (Nat × Nat)) (s : LcecSyncs)
    (hcap : s.sync_count + l.length ≤ 255)
    (hidx : ∀ i, i < s.sync_count → (s.syncs i).index = i)
    (hsent : 0 < s.sync_count → (s.syncs s.sync_count).index = 255) :
    (addSyncs s l).sync_count = s.sync_count + l.length ∧
    (∀ i, i < s.sync_count + l.length → ((addSyncs s l).syncs i).index = i) ∧
    (0 < s.sync_count + l.length →
      ((addSyncs s l).syncs (s.sync_count + l.length)).index = 255) := by
  induction l generalizing s with
  | nil =>
    exact ⟨by simp [addSyncs], by simpa [addSyncs] using hidx, by simpa [addSyncs] using hsent⟩
  | cons dw rest ih =>
    obtain ⟨d, w⟩ := dw
    simp only [List.length_cons] at hcap ⊢
    have hstep : (lcec_syncs_add_sync s d w).sync_count = s.sync_count + 1 := rfl
    have hstep_idx : ∀ i, i < s.sync_count + 1 →
        ((lcec_syncs_add_sync s d w).syncs i).index = i := by
      intro i hi
      rw [lcec_syncs_add_sync_syncs]
      rcases Nat.lt_or_ge i s.sync_count with h | h
      · rw [if_neg (by omega), if_neg (by omega)]
        exact hidx i h
      · have hieq : i = s.sync_count := by omega
        subst hieq
        rw [if_neg (by omega), if_pos rfl]
        show s.sync_count % 256 = s.sync_count
        omega
    have hstep_sent : ((lcec_syncs_add_sync s d w).syncs (s.sync_count + 1)).index = 255 := by
      rw [lcec_syncs_add_sync_syncs, if_pos rfl]
    have hrec := ih (lcec_syncs_add_sync s d w)
      (by rw [hstep]; omega)
      (by rw [hstep]; exact hstep_idx)
      (by rw [hstep]; intro h2; exact hstep_sent)
    rw [hstep] at hrec
    have harith : s.sync_count + 1 + rest.length = s.sync_count + (rest.length + 1) := by omega
    rw [harith] at hrec
    exact ⟨by simpa [addSyncs] using hrec.1,
      by simpa [addSyncs] using hrec.2.1,
      by simpa [addSyncs] using hrec.2.2⟩

/-- C5: each `lcec_syncs_add_sync` call increments the sync count by
exactly one, writes the pre-call count (as uint8) as the new slot's
index, and writes the 0xff terminator one slot past the new last valid
slot; consequently, starting from `lcec_syncs_init`, after any
non-empty in-capacity sequence of calls the explicit count and the
0xff-terminated view agree: slots 0..count-1 carry their own (non-0xff)
indices and the slot at count carries 0xff. -/
theorem lcec_syncs_add_sync_count_sentinel :
    (∀ s d w, (lcec_syncs_add_sync s d w).sync_count = s.sync_count + 1 ∧
      ((lcec_syncs_add_sync s d w).syncs s.sync_count).index = s.sync_count % 256 ∧
      ((lcec_syncs_add_sync s d w).syncs (s.sync_count + 1)).index = 255) ∧
    (∀ l : List (Nat × Nat), l ≠ [] → l.length ≤ 255 →
      (addSyncs lcec_syncs_init l).sync_count = l.length ∧
      (∀ i, i < l.length →
        ((addSyncs lcec_syncs_init l).syncs i).index = i ∧
        ((addSyncs lcec_syncs_init l).syncs i).index ≠ 255) ∧
      ((addSyncs lcec_syncs_init l).syncs l.length).index = 255) := by
  constructor
  · intro s d w
    refine ⟨rfl, ?_, ?_⟩
    · rw [lcec_syncs_add_sync_syncs, if_neg (by omega), if_pos rfl]
    · rw [lcec_syncs_add_sync_syncs, if_pos rfl]
  · intro l hne hcap
    have hlen : 0 < l.length := List.length_pos.mpr hne
    have h := addSyncs_invariant l lcec_syncs_init
      (by show 0 + l.length ≤ 255; omega)
      (fun i hi => absurd hi (Nat.not_lt_zero i))
      (fun h0 => absurd (show (0 : Nat) < 0 from h0) (by omega))
    rw [show lcec_syncs_init.sync_count = 0 from rfl, Nat.zero_add] at h
    refine ⟨h.1, ?_, h.2.2 hlen⟩
    intro i hi
    have hcap2 : i < 255 := by omega
    refine ⟨h.2.1 i hi, ?_⟩
    rw [h.2.1 i hi]
    omega

/-- Witness for C5: after two calls the count is 2, slots 0 and 1
carry indices 0 and 1, and slot 2 carries the 0xff terminator. -/
theorem lcec_syncs_add_sync_count_sentinel_witness :
    (addSyncs lcec_syncs_init [(1, 0), (2, 1)]).sync_count = 2 ∧
    ((addSyncs lcec_syncs_init [(1, 0), (2, 1)]).syncs 0).index = 0 ∧
    ((addSyncs lcec_syncs_init [(1, 0), (2, 1)]).syncs 1).index = 1 ∧
    ((addSyncs lcec_syncs_init [(1, 0), (2, 1)]).syncs 2).index = 255 := by
  have h := lcec_syncs_add_sync_count_sentinel.2 [(1, 0), (2, 1)]
    (by simp) (by simp)
  exact ⟨h.1, (h.2.1 0 (by simp)).1, (h.2.1 1 (by simp)).1, h.2.2⟩

/-- One call of the builder's three Add operations, for reasoning
about arbitrary call sequences. -/
inductive BuildEvent where
  | addSync (dir watchdog_mode : Nat)
  | addPdo (index : Nat)
  | addEntry (index subindex bit_length : Nat)
deriving DecidableEq, Repr

/-- Run one builder call on a descriptor set (`none` models the NULL
dereference a contract-violating call performs). -/
def runEvent (s : LcecSyncs) : BuildEvent → Option LcecSyncs
  | .addSync d w => some (lcec_syncs_add_sync s d w)
  | .addPdo i => lcec_syncs_add_pdo_info s i
  | .addEntry i su b => lcec_syncs_add_pdo_entry s i su b

/-- Run a sequence of builder calls left to right. -/
def runEvents (s : LcecSyncs) : List BuildEvent → Option LcecSyncs
  | [] => some s
  | e :: rest =>
    match runEvent s e with
    | none => none
    | some s2 => runEvents s2 rest

/-- The nesting contract, tracked by two flags: whether some sync
manager and some PDO already exist.  Each Add-PDO needs a sync
manager, each Add-PDO-Entry needs a PDO. -/
def validFrom : Bool → Bool → List BuildEvent → Bool
  | _, _, [] => true
  | _, hp, .addSync _ _ :: rest => validFrom true hp rest
  | hs, _, .addPdo _ :: rest => hs && validFrom hs true rest
  | hs, hp, .addEntry _ _ _ :: rest => hp && validFrom hs hp rest

/-- A call sequence respecting the nesting contract from a reset
descriptor set. -/
def validSeq (evs : List BuildEvent) : Bool := validFrom false false evs

/-- The entries added while each PDO was current, grouped per PDO in
insertion order (the claim's reference grouping): Add-PDO opens a new
empty group, Add-PDO-Entry appends the stored (width-truncated) entry
to the last group. -/
def groupsStep (gs : List (List EcPdoEntryInfo)) : BuildEvent → List (List EcPdoEntryInfo)
  | .addSync _ _ => gs
  | .addPdo _ => gs ++ [[]]
  | .addEntry i su b =>
      gs.dropLast ++ [gs.getLastD [] ++ [⟨i % 65536, su % 256, b % 256⟩]]

/-- The per-PDO grouping of a whole call sequence. -/
def groupsOf (evs : List BuildEvent) : List (List EcPdoEntryInfo) :=
  evs.foldl groupsStep []

/-- Total number of entries across all groups. -/
def totalLen (gs : List (List EcPdoEntryInfo)) : Nat := (gs.map List.length).sum

/-- Whether a builder call is an Add-PDO-Entry call. -/
def isAddEntry : BuildEvent → Bool
  | .addEntry _ _ _ => true
  | _ => false

/-- Number of Add-PDO-Entry calls in a sequence. -/
def countEntries (evs : List BuildEvent) : Nat := evs.countP isAddEntry

/-- The groups `gs` are laid out in the descriptor tables starting at
PDO slot `slot` and flat entry position `off`: each group's PDO slot
carries its length as `n_entries`, its head pointer (`none` exactly
when the group is empty, otherwise the group's entry run's start), and
the run of consecutive entry slots holds the group's entries in
order. -/
def RunsFrom (pinfos : Nat → EcPdoInfo) (pentries : Nat → EcPdoEntryInfo) :
    Nat → Nat → List (List EcPdoEntryInfo) → Prop
  | _, _, [] => True
  | slot, off, g :: rest =>
      (pinfos slot).n_entries = g.length ∧
      (pinfos slot).entries = (if g.isEmpty then none else some off) ∧
      (∀ j, j < g.length → pentries (off + j) = g.getD j zeroPdoEntryInfo) ∧
      RunsFrom pinfos pentries (slot + 1) (off + g.length) rest

/-- Appending one group to a layout adds its facts at the next slot
and the accumulated entry offset. -/
theorem runsFrom_append (pinfos : Nat → EcPdoInfo) (pentries : Nat → EcPdoEntryInfo)
    (gs : List (List EcPdoEntryInfo)) (g : List EcPdoEntryInfo) :
    ∀ slot off, RunsFrom pinfos pentries slot off (gs ++ [g]) ↔
      (RunsFrom pinfos pentries slot off gs ∧
        (pinfos (slot + gs.length)).n_entries = g.length ∧
        (pinfos (slot + gs.length)).entries =
          (if g.isEmpty then none else some (off + totalLen gs)) ∧
        (∀ j, j < g.length →
          pentries (off + totalLen gs + j) = g.getD j zeroPdoEntryInfo)) := by
  induction gs with
  | nil =>
    intro slot off
    simp [RunsFrom, totalLen]
  | cons g0 gs0 ih =>
    intro slot off
    simp only [List.cons_append, RunsFrom, List.append_eq]
    rw [ih (slot + 1) (off + g0.length)]
    have e1 : slot + 1 + gs0.length = slot + (g0 :: gs0).length := by
      simp [List.length_cons]; omega
    have e2 : off + g0.length + totalLen gs0 = off + totalLen (g0 :: gs0) := by
      simp [totalLen]; omega
    rw [e1, e2]
    tauto

/-- A layout is preserved by table changes that only touch slots at or
beyond its PDO-slot range and entry positions at or beyond its entry
range. -/
theorem runsFrom_frame (p1 p2 : Nat → EcPdoInfo) (e1 e2 : Nat → EcPdoEntryInfo)
    (gs : List (List EcPdoEntryInfo)) :
    ∀ slot off,
    (∀ k, k < gs.length → p2 (slot + k) = p1 (slot + k)) →
    (∀ i, i < totalLen gs → e2 (off + i) = e1 (off + i)) →
    RunsFrom p1 e1 slot off gs → RunsFrom p2 e2 slot off gs := by
  induction gs with
  | nil => intro slot off _ _ _; trivial
  | cons g gs0 ih =>
    intro slot off hp he hr
    obtain ⟨h1, h2, h3, h4⟩ := hr
    have hp0 : p2 slot = p1 slot := by
      have := hp 0 (by simp)
      simpa using this
    refine ⟨by rw [hp0]; exact h1, by rw [hp0]; exact h2, ?_, ?_⟩
    · intro j hj
      have hje : e2 (off + j) = e1 (off + j) := by
        refine he j ?_
        simp only [totalLen, List.map_cons, List.sum_cons]
        omega
      rw [hje]
      exact h3 j hj
    · refine ih (slot + 1) (off + g.length) ?_ ?_ h4
      · intro k hk
        have := hp (k + 1) (by simp [List.length_cons]; omega)
        rw [show slot + (k + 1) = slot + 1 + k from by omega] at this
        exact this
      · intro i hi
        have hi2 : g.length + i < totalLen (g :: gs0) := by
          simp only [totalLen, List.map_cons, List.sum_cons] at hi ⊢
          omega
        have := he (g.length + i) hi2
        rw [show off + (g.length + i) = off + g.length + i from by omega] at this
        exact this

/-- Appending a group to the group list adds its length to the
total. -/
theorem totalLen_concat (gs : List (List EcPdoEntryInfo)) (g : List EcPdoEntryInfo) :
    totalLen (gs ++ [g]) = totalLen gs + g.length := by
  simp [totalLen]

/-- One Add-PDO-Entry step grows the grouped total by one. -/
theorem totalLen_groupsStep_addEntry (gs : List (List EcPdoEntryInfo)) (i su b : Nat) :
    totalLen (groupsStep gs (.addEntry i su b)) = totalLen gs + 1 := by
  rcases List.eq_nil_or_concat gs with h | ⟨l2, g, h⟩
  · subst h
    simp [groupsStep, totalLen]
  · subst h
    simp only [groupsStep, List.concat_eq_append, List.dropLast_concat, List.getLastD_concat]
    rw [totalLen_concat, totalLen_concat]
    simp only [List.length_append, List.length_cons, List.length_nil]
    omega

/-- The grouped total over a call sequence counts exactly the
Add-PDO-Entry calls. -/
theorem totalLen_foldl_groupsStep (evs : List BuildEvent) :
    ∀ gs, totalLen (evs.foldl groupsStep gs) = totalLen gs + countEntries evs := by
  induction evs with
  | nil => intro gs; simp [countEntries, List.countP_nil]
  | cons e rest ih =>
    intro gs
    rw [List.foldl_cons, ih]
    cases e with
    | addSync d w =>
      have : countEntries (BuildEvent.addSync d w :: rest) = countEntries rest := by
        simp [countEntries, List.countP_cons, isAddEntry]
      rw [this]
      rfl
    | addPdo i =>
      have h1 : totalLen (groupsStep gs (.addPdo i)) = totalLen gs := by
        simp [groupsStep, totalLen]
      have h2 : countEntries (BuildEvent.addPdo i :: rest) = countEntries rest := by
        simp [countEntries, List.countP_cons, isAddEntry]
      rw [h1, h2]
    | addEntry i su b =>
      have h2 : countEntries (BuildEvent.addEntry i su b :: rest) = countEntries rest + 1 := by
        simp [countEntries, List.countP_cons, isAddEntry]
      rw [totalLen_groupsStep_addEntry, h2]
      omega

/-- The descriptor set `lcec_syncs_add_pdo_info` produces when a
current sync manager exists (spelled out for reasoning). -/
@[reducible] def addPdoResult (s : LcecSyncs) (cs index : Nat) : LcecSyncs :=
  { s with
    syncs := updAt s.syncs cs
      (if (s.syncs cs).pdos = none then
        { s.syncs cs with pdos := some s.pdo_info_count, n_pdos := (s.syncs cs).n_pdos + 1 }
      else
        { s.syncs cs with n_pdos := (s.syncs cs).n_pdos + 1 })
    pdo_infos := updAt s.pdo_infos s.pdo_info_count
      { s.pdo_infos s.pdo_info_count with index := index % 65536 }
    pdo_info_count := s.pdo_info_count + 1
    curr_sync := some cs
    curr_pdo_info := some s.pdo_info_count }

/-- With a current sync manager, `lcec_syncs_add_pdo_info` succeeds
and produces `addPdoResult`. -/
theorem lcec_syncs_add_pdo_info_eq (s : LcecSyncs) (cs : Nat)
    (h : s.curr_sync = some cs) (index : Nat) :
    lcec_syncs_add_pdo_info s index = some (addPdoResult s cs index) := by
  rw [lcec_syncs_add_pdo_info, h]

/-- The descriptor set `lcec_syncs_add_pdo_entry` produces when a
current PDO exists (spelled out for reasoning). -/
@[reducible] def addEntryResult (s : LcecSyncs) (cp index subindex bit_length : Nat) : LcecSyncs :=
  { s with
    pdo_infos := updAt s.pdo_infos cp
      (if (s.pdo_infos cp).entries = none then
        { s.pdo_infos cp with entries := some s.pdo_entry_count, n_entries := (s.pdo_infos cp).n_entries + 1 }
      else
        { s.pdo_infos cp with n_entries := (s.pdo_infos cp).n_entries + 1 })
    pdo_entries := updAt s.pdo_entries s.pdo_entry_count
      ⟨index % 65536, subindex % 256, bit_length % 256⟩
    pdo_entry_count := s.pdo_entry_count + 1
    curr_pdo_info := some cp
    curr_pdo_entry := some s.pdo_entry_count }

/-- With a current PDO, `lcec_syncs_add_pdo_entry` succeeds and
produces `addEntryResult`. -/
theorem lcec_syncs_add_pdo_entry_eq (s : LcecSyncs) (cp : Nat)
    (h : s.curr_pdo_info = some cp) (index subindex bit_length : Nat) :
    lcec_syncs_add_pdo_entry s index subindex bit_length =
      some (addEntryResult s cp index subindex bit_length) := by
  rw [lcec_syncs_add_pdo_entry, h]

/-- The builder invariant tying a descriptor set to the reference
grouping: counts match, the current-PDO cursor points at the last
group, the tables lay the groups out from slot 0 / entry offset 0, and
PDO slots at or past the count are still in their zero-initialized
state. -/
def BuilderInv (s : LcecSyncs) (gs : List (List EcPdoEntryInfo)) : Prop :=
  s.pdo_info_count = gs.length ∧
  s.pdo_entry_count = totalLen gs ∧
  s.curr_pdo_info = (if gs.length = 0 then none else some (gs.length - 1)) ∧
  RunsFrom s.pdo_infos s.pdo_entries 0 0 gs ∧
  (∀ k, gs.length ≤ k → s.pdo_infos k = zeroPdoInfo)

/-- Core induction: a contract-respecting call sequence runs without
NULL dereference and carries the builder invariant to the grouped
result. -/
theorem builderInv_run (evs : List BuildEvent) :
    ∀ (s : LcecSyncs) (gs : List (List EcPdoEntryInfo)),
    validFrom s.curr_sync.isSome s.curr_pdo_info.isSome evs = true →
    BuilderInv s gs →
    ∃ s2, runEvents s evs = some s2 ∧ BuilderInv s2 (evs.foldl groupsStep gs) := by
  induction evs with
  | nil => exact fun s gs _ hinv => ⟨s, rfl, hinv⟩
  | cons e rest ih =>
    intro s gs hv hinv
    cases e with
    | addSync d w =>
      have hv3 : validFrom (lcec_syncs_add_sync s d w).curr_sync.isSome
          (lcec_syncs_add_sync s d w).curr_pdo_info.isSome rest = true := hv
      have hinv2 : BuilderInv (lcec_syncs_add_sync s d w) gs := hinv
      obtain ⟨s3, hrun, hinv3⟩ := ih (lcec_syncs_add_sync s d w) gs hv3 hinv2
      exact ⟨s3, hrun, hinv3⟩
    | addPdo i =>
      have hv2 : (s.curr_sync.isSome && validFrom s.curr_sync.isSome true rest) = true := hv
      rw [Bool.and_eq_true] at hv2
      obtain ⟨hs_true, hrest⟩ := hv2
      obtain ⟨cs, hcs⟩ := Option.isSome_iff_exists.mp hs_true
      obtain ⟨hcount, hecount, hcurr, hruns, hfresh⟩ := hinv
      have heq := lcec_syncs_add_pdo_info_eq s cs hcs i
      have hfreshc : s.pdo_infos s.pdo_info_count = zeroPdoInfo := hfresh _ (le_of_eq hcount.symm)
      have hinv2 : BuilderInv (addPdoResult s cs i) (gs ++ [[]]) := by
        refine ⟨?_, ?_, ?_, ?_, ?_⟩
        · show s.pdo_info_count + 1 = (gs ++ [[]]).length
          rw [hcount]; simp
        · show s.pdo_entry_count = totalLen (gs ++ [[]])
          rw [totalLen_concat]; simpa using hecount
        · show some s.pdo_info_count =
            (if (gs ++ [[]]).length = 0 then none else some ((gs ++ [[]]).length - 1))
          rw [if_neg (by simp)]
          rw [hcount]; simp
        · refine (runsFrom_append _ _ gs [] 0 0).mpr ⟨?_, ?_, ?_, ?_⟩
          · refine runsFrom_frame s.pdo_infos _ s.pdo_entries _ gs 0 0 ?_ (fun _ _ => rfl) hruns
            intro k hk
            show updAt s.pdo_infos s.pdo_info_count _ (0 + k) = s.pdo_infos (0 + k)
            simp only [updAt]
            rw [if_neg (by omega)]
          · show (updAt s.pdo_infos s.pdo_info_count _ (0 + gs.length)).n_entries = _
            simp only [updAt]
            rw [if_pos (by omega), hfreshc]
            rfl
          · show (updAt s.pdo_infos s.pdo_info_count _ (0 + gs.length)).entries = _
            simp only [updAt]
            rw [if_pos (by omega), hfreshc]
            rfl
          · intro j hj
            exact absurd hj (by simp)
        · intro k hk
          show updAt s.pdo_infos s.pdo_info_count _ k = zeroPdoInfo
          simp only [updAt]
          simp only [List.length_append, List.length_cons, List.length_nil] at hk
          rw [if_neg (by omega)]
          exact hfresh k (by omega)
      have hv3 : validFrom (addPdoResult s cs i).curr_sync.isSome
          (addPdoResult s cs i).curr_pdo_info.isSome rest = true := by
        have hrest2 := hrest
        rw [hs_true] at hrest2
        exact hrest2
      obtain ⟨s3, hrun, hinv3⟩ := ih (addPdoResult s cs i) (gs ++ [[]]) hv3 hinv2
      refine ⟨s3, ?_, ?_⟩
      · show runEvents s (BuildEvent.addPdo i :: rest) = some s3
        simp only [runEvents, runEvent]
        rw [heq]
        exact hrun
      · exact hinv3
    | addEntry i su b =>
      have hv2 : (s.curr_pdo_info.isSome &&
          validFrom s.curr_sync.isSome s.curr_pdo_info.isSome rest) = true := hv
      rw [Bool.and_eq_true] at hv2
      obtain ⟨hp_true, hrest⟩ := hv2
      obtain ⟨cp, hcp⟩ := Option.isSome_iff_exists.mp hp_true
      obtain ⟨hcount, hecount, hcurr, hruns, hfresh⟩ := hinv
      have hgs_ne : gs ≠ [] := by
        intro hnil
        subst hnil
        rw [hcurr] at hcp
        simp at hcp
      rcases List.eq_nil_or_concat gs with hnil | ⟨l2, g, hgs⟩
      · exact absurd hnil hgs_ne
      rw [List.concat_eq_append] at hgs
      subst hgs
      have hcp2 : cp = l2.length := by
        rw [hcurr, if_neg (by simp)] at hcp
        injection hcp with h2
        simp only [List.length_append, List.length_cons, List.length_nil] at h2
        omega
      subst hcp2
      have heq := lcec_syncs_add_pdo_entry_eq s l2.length hcp i su b
      have happ := (runsFrom_append s.pdo_infos s.pdo_entries l2 g 0 0).mp hruns
      obtain ⟨hrl2, hng, hentg, hrung⟩ := happ
      simp only [Nat.zero_add] at hng hentg hrung
      have hecount2 : s.pdo_entry_count = totalLen l2 + g.length := by
        rw [hecount, totalLen_concat]
      have hinv2 : BuilderInv (addEntryResult s l2.length i su b)
          (l2 ++ [g ++ [⟨i % 65536, su % 256, b % 256⟩]]) := by
        refine ⟨?_, ?_, ?_, ?_, ?_⟩
        · show s.pdo_info_count = _
          rw [hcount]; simp
        · show s.pdo_entry_count + 1 = _
          rw [totalLen_concat, hecount2]
          simp only [List.length_append, List.length_cons, List.length_nil]
          omega
        · show some l2.length = _
          rw [if_neg (by simp)]
          simp
        · refine (runsFrom_append _ _ l2 _ 0 0).mpr ⟨?_, ?_, ?_, ?_⟩
          · refine runsFrom_frame s.pdo_infos _ s.pdo_entries _ l2 0 0 ?_ ?_ hrl2
            · intro k hk
              show updAt s.pdo_infos l2.length _ (0 + k) = s.pdo_infos (0 + k)
              simp only [updAt]
              rw [if_neg (by omega)]
            · intro idx hidx
              show updAt s.pdo_entries s.pdo_entry_count _ (0 + idx) = s.pdo_entries (0 + idx)
              simp only [updAt]
              rw [if_neg (by omega)]
          · show (updAt s.pdo_infos l2.length _ (0 + l2.length)).n_entries = _
            simp only [updAt]
            rw [if_pos (by omega)]
            have hne : ∀ p : EcPdoInfo,
                ((if p.entries = none then
                  { p with entries := some s.pdo_entry_count, n_entries := p.n_entries + 1 }
                else { p with n_entries := p.n_entries + 1 }) : EcPdoInfo).n_entries =
                  p.n_entries + 1 := by
              intro p
              by_cases h : p.entries = none <;> simp [h]
            rw [hne, hng]
            simp
          · show (updAt s.pdo_infos l2.length _ (0 + l2.length)).entries =
              (if (g ++ [(⟨i % 65536, su % 256, b % 256⟩ : EcPdoEntryInfo)]).isEmpty = true then
                none else some (0 + totalLen l2))
            have hrhs : (if (g ++ [(⟨i % 65536, su % 256, b % 256⟩ : EcPdoEntryInfo)]).isEmpty =
                true then (none : Option Nat) else some (0 + totalLen l2)) =
                some (0 + totalLen l2) := by
              rw [if_neg]
              simp
            rw [hrhs]
            simp only [updAt]
            rw [if_pos (by omega)]
            by_cases hgn : (s.pdo_infos l2.length).entries = none
            · rw [if_pos hgn]
              show some s.pdo_entry_count = some (0 + totalLen l2)
              have hge : g.isEmpty = true := by
                by_contra hge
                rw [hentg, if_neg hge] at hgn
                exact absurd hgn (by simp)
              have hg0 : g = [] := List.isEmpty_iff.mp hge
              rw [hecount2, hg0]
              simp
            · rw [if_neg hgn]
              show (s.pdo_infos l2.length).entries = some (0 + totalLen l2)
              have hge : ¬ g.isEmpty = true := by
                intro hge2
                rw [hentg, if_pos hge2] at hgn
                exact hgn rfl
              rw [hentg, if_neg hge]
              simp
          · intro j hj
            simp only [List.length_append, List.length_cons, List.length_nil] at hj
            show updAt s.pdo_entries s.pdo_entry_count _ (0 + totalLen l2 + j) = _
            simp only [updAt]
            rcases Nat.lt_or_ge j g.length with hlt | hge2
            · rw [if_neg (by omega)]
              have hold := hrung j hlt
              rw [show (0 : Nat) + totalLen l2 + j = totalLen l2 + j from by omega]
              rw [hold]
              rw [List.getD_eq_getElem?_getD, List.getD_eq_getElem?_getD,
                List.getElem?_append_left hlt]
            · have hje : j = g.length := by omega
              subst hje
              rw [if_pos (by omega)]
              rw [List.getD_eq_getElem?_getD, List.getElem?_concat_length]
              rfl
        · intro k hk
          simp only [List.length_append, List.length_cons, List.length_nil] at hk
          show updAt s.pdo_infos l2.length _ k = zeroPdoInfo
          simp only [updAt]
          rw [if_neg (by omega)]
          exact hfresh k (by simp; omega)
      have hv3 : validFrom (addEntryResult s l2.length i su b).curr_sync.isSome
          (addEntryResult s l2.length i su b).curr_pdo_info.isSome rest = true := by
        have hrest2 := hrest
        rw [hp_true] at hrest2
        exact hrest2
      obtain ⟨s3, hrun, hinv3⟩ := ih (addEntryResult s l2.length i su b)
        (l2 ++ [g ++ [⟨i % 65536, su % 256, b % 256⟩]]) hv3 hinv2
      refine ⟨s3, ?_, ?_⟩
      · show runEvents s (BuildEvent.addEntry i su b :: rest) = some s3
        simp only [runEvents, runEvent]
        rw [heq]
        exact hrun
      · show BuilderInv s3 ((BuildEvent.addEntry i su b :: rest).foldl groupsStep (l2 ++ [g]))
        simp only [List.foldl_cons, groupsStep, List.dropLast_concat, List.getLastD_concat]
        exact hinv3

/-- C3: for every call sequence respecting the nesting contract from a
reset descriptor set, the run succeeds, the total entry count equals
the number of Add-PDO-Entry calls, and each PDO slot's entry run (head
pointer plus `n_entries` consecutive slots of the flat entry table)
holds exactly, in insertion order, the entries added while that PDO
was current (the per-PDO grouping `groupsOf`). -/
theorem lcec_syncs_builder_entry_runs (evs : List BuildEvent) (hv : validSeq evs = true) :
    ∃ s, runEvents lcec_syncs_init evs = some s ∧
      s.pdo_entry_count = countEntries evs ∧
      s.pdo_info_count = (groupsOf evs).length ∧
      RunsFrom s.pdo_infos s.pdo_entries 0 0 (groupsOf evs) := by
  have hinv0 : BuilderInv lcec_syncs_init [] :=
    ⟨rfl, rfl, rfl, trivial, fun _ _ => rfl⟩
  have hv2 : validFrom lcec_syncs_init.curr_sync.isSome
      lcec_syncs_init.curr_pdo_info.isSome evs = true := hv
  obtain ⟨s, hrun, hinv⟩ := builderInv_run evs lcec_syncs_init [] hv2 hinv0
  obtain ⟨hcount, hecount, hcurr, hruns, hfresh⟩ := hinv
  refine ⟨s, hrun, ?_, hcount, hruns⟩
  rw [hecount, totalLen_foldl_groupsStep evs []]
  show totalLen [] + countEntries evs = countEntries evs
  simp [totalLen]

/-- The end-to-end scenario of the spec plus a second sync manager:
one input sync manager with one PDO carrying two 8-bit entries, then
an output sync manager with one PDO carrying one 16-bit entry. -/
def demoEvents : List BuildEvent :=
  [.addSync 1 0, .addPdo 5632, .addEntry 28672 1 8, .addEntry 28672 2 8,
   .addSync 2 1, .addPdo 6656, .addEntry 24576 1 16]

/-- Witness for C3 on the demo sequence: it respects the contract, the
run succeeds, and the run's descriptor set holds exactly 3 entries. -/
theorem lcec_syncs_builder_entry_runs_witness :
    validSeq demoEvents = true ∧
    (runEvents lcec_syncs_init demoEvents).map (fun s => s.pdo_entry_count) = some 3 := by
  obtain ⟨s, hrun, h1, h2, h3⟩ := lcec_syncs_builder_entry_runs demoEvents (by decide)
  refine ⟨by decide, ?_⟩
  rw [hrun]
  show some s.pdo_entry_count = some 3
  rw [h1]
  decide
